import Mathlib

/-!
Verification of the patch-application and validation-repair core of the
code-agent repository.

The Python sources are shallowly embedded:

* `PyStr` models the Python `str` operations used by the sources
  (`in`, `str.count`, `str.replace(_, _, 1)`, `str.strip`) over `List Char`.
* `DiffManager` embeds `src/shared/diff_manager.py`.
* `CodeAgentService` embeds `check_code` and `validate_and_fix` from
  `src/code_agent/service.py` with explicit state passing: the local file
  tree is a function `String → Option (List Char)`, and the external
  linter and the LLM fixer are oracle fields of an environment record.
-/

instance {ε α : Type _} [DecidableEq ε] [DecidableEq α] : DecidableEq (Except ε α) := fun x y =>
  match x, y with
  | Except.ok a, Except.ok b =>
    if h : a = b then Decidable.isTrue (by subst h; rfl)
    else Decidable.isFalse (fun hc => h (Except.ok.inj hc))
  | Except.error a, Except.error b =>
    if h : a = b then Decidable.isTrue (by subst h; rfl)
    else Decidable.isFalse (fun hc => h (Except.error.inj hc))
  | Except.ok _, Except.error _ => Decidable.isFalse (fun hc => Except.noConfusion hc)
  | Except.error _, Except.ok _ => Decidable.isFalse (fun hc => Except.noConfusion hc)

namespace PyStr

/-- Boolean prefix test on character lists. -/
def isPref : List Char → List Char → Bool
  | [], _ => true
  | _ :: _, [] => false
  | a :: s, b :: t => if a = b then isPref s t else false

/-- Python's substring test `needle in hay` (true for the empty needle). -/
def containsSub (needle : List Char) : List Char → Bool
  | [] => needle.isEmpty
  | c :: rest => isPref needle (c :: rest) || containsSub needle rest

/-- Scanner for `count`: `skip` characters are still covered by the previous
match (Python counts non-overlapping occurrences, scanning left to right,
jumping over each match). -/
def countFrom (needle : List Char) : Nat → List Char → Nat
  | _, [] => 0
  | skip + 1, _ :: rest => countFrom needle skip rest
  | 0, c :: rest =>
    if isPref needle (c :: rest) then 1 + countFrom needle (needle.length - 1) rest
    else countFrom needle 0 rest

/-- Python's `hay.count(needle)`: number of non-overlapping occurrences,
greedy from the left; `hay.count("")` is `hay.length + 1`. -/
def count (needle hay : List Char) : Nat :=
  if needle = [] then hay.length + 1 else countFrom needle 0 hay

/-- Number of positions at which `needle` occurs in `hay` (occurrences may
overlap).  This is the plain notion of "number of occurrences" used to state
claims; it can exceed `count`, which is Python's non-overlapping count. -/
def countPos (needle : List Char) : List Char → Nat
  | [] => if needle = [] then 1 else 0
  | c :: rest => (if isPref needle (c :: rest) then 1 else 0) + countPos needle rest

/-- Python's `hay.replace(needle, repl, 1)`: replace the first occurrence
(`"".replace("", r, 1) = r`, `h.replace("", r, 1) = r ++ h`). -/
def replaceFirst (needle repl : List Char) : List Char → List Char
  | [] => if needle = [] then repl else []
  | c :: rest =>
    if isPref needle (c :: rest) then repl ++ (c :: rest).drop needle.length
    else c :: replaceFirst needle repl rest

end PyStr

namespace DiffManager

open PyStr

/-- The bare block-start marker, as tested by the fallback branch of
`apply_diff` (`"<<<<<< SEARCH" in diff_content`). -/
def markerBare : List Char := "<<<<<< SEARCH".data

/-- Start delimiter consumed by the block regex (`<<<<<< SEARCH\n`). -/
def startMarker : List Char := markerBare ++ ['\n']

/-- Separator between the search and replace bodies (`\n======\n`). -/
def sepMarker : List Char := "\n======\n".data

/-- End delimiter of a block (`\n>>>>>> REPLACE`). -/
def endMarker : List Char := "\n>>>>>> REPLACE".data

/-- First-occurrence splitter: `splitOnFirst needle hay = some (pre, post)`
when `needle` occurs in `hay`, where `pre` precedes and `post` follows the
leftmost occurrence.  This is how each lazy group `(.*?)` of the block regex
consumes text: the group ends at the first occurrence of its terminator. -/
def splitOnFirst (needle : List Char) : List Char → Option (List Char × List Char)
  | [] => if needle = [] then some ([], []) else none
  | c :: rest =>
    if isPref needle (c :: rest) then some ([], (c :: rest).drop needle.length)
    else
      match splitOnFirst needle rest with
      | some (pre, post) => some (c :: pre, post)
      | none => none

/-- Parser for the regex
`<<<<<< SEARCH\n(.*?)\n======\n(.*?)\n>>>>>> REPLACE` (DOTALL) as iterated by
`re.finditer`.  Each match anchors at the leftmost `<<<<<< SEARCH\n`; the lazy
first group ends at the first following `\n======\n`; the lazy second group
ends at the first following `\n>>>>>> REPLACE`; scanning resumes after the
match, so matches never overlap.  If any delimiter is missing the whole match
attempt fails, and it then also fails at every later start marker (all later
delimiter occurrences are occurrences after the earlier positions as well), so
returning `[]` is faithful to `finditer` finding no further match.  The fuel is
the input length; every parsed block consumes at least one character. -/
def parseBlocksFuel : Nat → List Char → List (List Char × List Char)
  | 0, _ => []
  | fuel + 1, s =>
    match splitOnFirst startMarker s with
    | none => []
    | some (_, rest) =>
      match splitOnFirst sepMarker rest with
      | none => []
      | some (found, rest2) =>
        match splitOnFirst endMarker rest2 with
        | none => []
        | some (repl, rest3) => (found, repl) :: parseBlocksFuel fuel rest3

/-- All search/replace blocks parsed from a payload, in order. -/
def parseBlocks (s : List Char) : List (List Char × List Char) :=
  parseBlocksFuel s.length s

/-- The two `ValueError` cases raised by `apply_diff`. -/
inductive PatchErr where
  | notFound (found : List Char)
  | ambiguous (cnt : Nat) (found : List Char)
deriving DecidableEq

/-- The block-application loop of `apply_diff` (lines 42–60 of
`diff_manager.py`): for each block, if the search text is a substring of the
accumulated content, count its non-overlapping occurrences; more than one is
an ambiguity error, otherwise the first occurrence is replaced; a search text
that is not a substring is a not-found error. -/
def applyBlocks (content : List Char) : List (List Char × List Char) → Except PatchErr (List Char)
  | [] => Except.ok content
  | (s, r) :: rest =>
    if containsSub s content then
      if 1 < count s content then Except.error (PatchErr.ambiguous (count s content) s)
      else applyBlocks (replaceFirst s r content) rest
    else Except.error (PatchErr.notFound s)

/-- `DiffManager.apply_diff(original_content, diff_content)`.  A raised
`ValueError` is modelled as `Except.error`: no modified content is produced in
that case.  When no block parses, the payload is returned verbatim if it does
not contain the bare marker, and the original content is returned otherwise
(lines 28–40). -/
def apply_diff (original_content diff_content : List Char) : Except PatchErr (List Char) :=
  let blocks := parseBlocks diff_content
  if blocks = [] then
    if containsSub markerBare diff_content then Except.ok original_content
    else Except.ok diff_content
  else applyBlocks original_content blocks

end DiffManager

namespace CodeAgentService

open PyStr

/-- A Python value as it may appear as a ChangeSet payload returned by the
LLM: a string, a dict that has a `"content"` key (whose value is again an
arbitrary Python value), a dict without that key, or any other object
(int, list, None, ...). -/
inductive PyVal where
  | str (s : List Char)
  | dictWithContent (v : PyVal)
  | dictNoContent
  | other
deriving DecidableEq

/-- The payload-shape handling of `validate_and_fix` (service.py lines
114–127): a dict is unwrapped once through its `"content"` key; anything that
is not then a string is skipped (`continue`), yielding `none`. -/
def resolvePayload : PyVal → Option (List Char)
  | PyVal.str s => some s
  | PyVal.dictWithContent (PyVal.str s) => some s
  | PyVal.dictWithContent _ => none
  | PyVal.dictNoContent => none
  | PyVal.other => none

/-- Rendering of a raised `ValueError` from `apply_diff` into the diagnostic
recorded in `files_with_errors` (`f"Diff Application Error: {e}"`); the
message text itself is irrelevant to the claims, so only the search text and
count are kept. -/
def patchErrMsg : DiffManager.PatchErr → List Char
  | DiffManager.PatchErr.notFound s => "Search block not found: ".data ++ s
  | DiffManager.PatchErr.ambiguous _ s => "Ambiguous update: ".data ++ s

/-- External effects of one repair session, as oracles: `check` models
`check_code` on the file just written (the real code re-reads the file from
disk immediately after writing it, so the content argument equals the disk
content), `fix` models `self.llm_client.fix_code(current_broken_code,
error_report)`. -/
structure Env where
  check : String → List Char → Option (List Char)
  fix : List (String × List Char) → List (String × List Char) → List (String × PyVal)

/-- State accumulated by one pass of the `for filename, content in
changes.items()` loop (lines 100–149): the local file tree, the
`files_with_errors` list, and the trace of which files were written,
validated (i.e. had `check_code` run on them) and staged. -/
structure RoundResult where
  disk : String → Option (List Char)
  errors : List (String × List Char)
  written : List String
  validated : List String
  staged : List String

/-- The diff branch (lines 129–137): a payload containing the marker is
applied as a patch against the existing on-disk content; a payload without
the marker, or one targeting a file that does not exist yet, is written
as-is. -/
def resolveDiff (disk : String → Option (List Char)) (fname : String) (content : List Char) :
    Except DiffManager.PatchErr (List Char) :=
  if containsSub DiffManager.markerBare content then
    match disk fname with
    | some original => DiffManager.apply_diff original content
    | none => Except.ok content
  else Except.ok content

/-- Processing of a single `(filename, content)` entry (lines 104–149):
payload-shape resolution, optional diff application against the existing
on-disk content, write, validation, and staging on pass. -/
def processEntry (env : Env) (acc : RoundResult) (fname : String) (payload : PyVal) : RoundResult :=
  match resolvePayload payload with
  | none => acc
  | some content =>
    match resolveDiff acc.disk fname content with
    | Except.error e =>
      { acc with errors := acc.errors ++ [(fname, patchErrMsg e)] }
    | Except.ok finalContent =>
      let acc2 : RoundResult :=
        { acc with
          disk := fun g => if g = fname then some finalContent else acc.disk g,
          written := acc.written ++ [fname] }
      match env.check fname finalContent with
      | some err =>
        { acc2 with
          validated := acc2.validated ++ [fname],
          errors := acc2.errors ++ [(fname, err)] }
      | none =>
        { acc2 with
          validated := acc2.validated ++ [fname],
          staged := acc2.staged ++ [fname] }

/-- One full apply-and-validate round over the current ChangeSet: the body of
one iteration of the `while retry_count < max_retries` loop before the
decision point. -/
def processRound (env : Env) (disk : String → Option (List Char))
    (changes : List (String × PyVal)) : RoundResult :=
  changes.foldl (fun acc e => processEntry env acc e.1 e.2) ⟨disk, [], [], [], []⟩

/-- Association-list lookup, modelling Python dict access on a ChangeSet. -/
def assocLookup (l : List (String × PyVal)) (k : String) : Option PyVal :=
  match l with
  | [] => none
  | (a, b) :: t => if a = k then some b else assocLookup t k

/-- `current_broken_code` (lines 170–178): for every failing file read the
current on-disk content; if the file does not exist fall back to
`changes.get(fname, "")` (a payload that need not be a string — only its
resolvable text is kept here, else the empty string, matching the `""`
default). -/
def brokenCode (disk : String → Option (List Char)) (changes : List (String × PyVal))
    (errors : List (String × List Char)) : List (String × List Char) :=
  errors.map (fun e =>
    (e.1, match disk e.1 with
          | some c => c
          | none =>
            match assocLookup changes e.1 with
            | some v => (resolvePayload v).getD []
            | none => []))

/-- Python `changes.update(fixed_changes)` on a dict with unique keys:
existing keys keep their position and receive the new value; keys not yet
present are appended in the order of `fixes`. -/
def dictUpdate (changes fixes : List (String × PyVal)) : List (String × PyVal) :=
  changes.map (fun e =>
    match assocLookup fixes e.1 with
    | some v => (e.1, v)
    | none => e) ++
  fixes.filter (fun f => (assocLookup changes f.1).isNone)

/-- The retry loop of `validate_and_fix` (lines 97–186), with the remaining
budget as fuel: `fuel = max_retries - retry_count`.  Returns the final
boolean, the number of apply-and-validate rounds executed, and the trace of
all rounds.  On a clean round it returns `true`; otherwise, having
incremented `retry_count`, it returns `false` if the budget is exhausted, and
else requests fixes for exactly the failing files, merges them into the
ChangeSet and retries. -/
def loopAux (env : Env) : Nat → (String → Option (List Char)) → List (String × PyVal) →
    Bool × Nat × List RoundResult
  | 0, _, _ => (false, 0, [])
  | fuel + 1, disk, changes =>
    let r := processRound env disk changes
    if r.errors = [] then (true, 1, [r])
    else if fuel = 0 then (false, 1, [r])
    else
      let broken := brokenCode r.disk changes r.errors
      let fixes := env.fix broken r.errors
      let next := loopAux env fuel r.disk (dictUpdate changes fixes)
      (next.1, next.2.1 + 1, r :: next.2.2)

/-- `CodeAgentService.validate_and_fix(changes, repo_git)`: an empty ChangeSet
is rejected up front with no round executed; otherwise the retry loop runs
with the hard-coded budget `max_retries = 3`. -/
def validate_and_fix (env : Env) (disk : String → Option (List Char))
    (changes : List (String × PyVal)) : Bool × Nat × List RoundResult :=
  if changes = [] then (false, 0, []) else loopAux env 3 disk changes

/-- Result of the in-isolation compile step of `check_code` (lines 54–62):
`compile(source, filename, 'exec')` succeeds, raises `SyntaxError`, or the
read/compile raises some other exception. -/
inductive SynOutcome where
  | ok
  | synError (msg : List Char)
  | readError (msg : List Char)
deriving DecidableEq

/-- Result of invoking the external checker subprocess (lines 64–81):
a completed run with an exit code and captured standard output, a
`FileNotFoundError` (checker binary absent), or any other execution error. -/
inductive LintOutcome where
  | exited (returncode : Int) (stdout : List Char)
  | fileNotFound
  | execError
deriving DecidableEq

/-- Python `str.strip()` (both ends, default whitespace). -/
def pyStrip (s : List Char) : List Char :=
  ((s.dropWhile Char.isWhitespace).reverse.dropWhile Char.isWhitespace).reverse

/-- Boolean suffix test, modelling Python `str.endswith`. -/
def endsWith (suffix l : List Char) : Bool :=
  isPref suffix.reverse l.reverse

/-- `CodeAgentService.check_code(filename)` (lines 48–83), with the two
effectful steps supplied as outcomes.  Non-Python files are never checked.
A syntax or read error fails immediately.  The linter fails the file only on
a non-zero exit code with non-whitespace standard output; a non-zero exit
with blank output, an absent checker binary, and any other checker execution
error all degrade to a pass (`None`), with only a printed warning. -/
def check_code (filename : List Char) (syn : SynOutcome) (lint : LintOutcome) :
    Option (List Char) :=
  if endsWith ".py".data filename = false then none
  else
    match syn with
    | SynOutcome.synError m => some ("SyntaxError in ".data ++ filename ++ ": ".data ++ m)
    | SynOutcome.readError m => some ("Error reading/compiling ".data ++ filename ++ ": ".data ++ m)
    | SynOutcome.ok =>
      match lint with
      | LintOutcome.exited rc out =>
        if rc ≠ 0 then
          if pyStrip out ≠ [] then some ("Linter Errors in ".data ++ filename ++ ":\n".data ++ out)
          else none
        else none
      | LintOutcome.fileNotFound => none
      | LintOutcome.execError => none

end CodeAgentService

/-! ### Concrete sessions used to witness the repair-loop claims -/

namespace Fixtures

/-- A session whose single file always validates cleanly. -/
def env0 : CodeAgentService.Env := ⟨fun _ _ => none, fun _ _ => []⟩

def disk0 : String → Option (List Char) := fun _ => none

def changes0 : List (String × CodeAgentService.PyVal) :=
  [("a.py", CodeAgentService.PyVal.str "x = 1\n".data)]

/-- A session where `a.py` passes in round 1 while `b.py` fails once and is
then replaced by the fixer with passing content. -/
def env5 : CodeAgentService.Env :=
  ⟨fun f c => if f = "b.py" ∧ c = "bad".data then some "err".data else none,
   fun _ _ => [("b.py", CodeAgentService.PyVal.str "good".data)]⟩

def disk5 : String → Option (List Char) := fun _ => none

def changes5 : List (String × CodeAgentService.PyVal) :=
  [("a.py", CodeAgentService.PyVal.str "ok".data),
   ("b.py", CodeAgentService.PyVal.str "bad".data)]

/-- A session holding one well-formed file and one entry whose payload is not
a string and not a dict with a `"content"` key. -/
def env10 : CodeAgentService.Env := ⟨fun _ _ => none, fun _ _ => []⟩

def disk10 : String → Option (List Char) := fun _ => none

def changes10 : List (String × CodeAgentService.PyVal) :=
  [("good.py", CodeAgentService.PyVal.str "y = 2\n".data),
   ("bad.py", CodeAgentService.PyVal.other)]

/-- A session with a single malformed payload entry. -/
def env4 : CodeAgentService.Env := ⟨fun _ _ => none, fun _ _ => []⟩

def disk4 : String → Option (List Char) := fun _ => some "old".data

def changes4 : List (String × CodeAgentService.PyVal) :=
  [("a.txt", CodeAgentService.PyVal.other)]

end Fixtures

/-! ### Lemmas about the Python string primitives -/

namespace PyStr

theorem isPref_iff {n h : List Char} : isPref n h = true ↔ ∃ t, h = n ++ t := by
  induction n generalizing h with
  | nil => simp [isPref]
  | cons a s ih =>
    cases h with
    | nil =>
      constructor
      · intro hc; simp [isPref] at hc
      · rintro ⟨u, hu⟩; simp at hu
    | cons b t =>
      simp only [isPref]
      by_cases hab : a = b
      · subst hab
        rw [if_pos rfl, ih]
        constructor
        · rintro ⟨u, rfl⟩; exact ⟨u, rfl⟩
        · rintro ⟨u, hu⟩
          injection hu with h1 h2
          exact ⟨u, h2⟩
      · rw [if_neg hab]
        constructor
        · intro hc; simp at hc
        · rintro ⟨u, hu⟩
          injection hu with h1 h2
          exact absurd h1.symm hab

theorem isPref_self_append (n t : List Char) : isPref n (n ++ t) = true :=
  isPref_iff.mpr ⟨t, rfl⟩

theorem isPref_append_of {n X : List Char} (h : isPref n X = true) (Y : List Char) :
    isPref n (X ++ Y) = true := by
  obtain ⟨t, rfl⟩ := isPref_iff.mp h
  exact isPref_iff.mpr ⟨t ++ Y, by simp⟩

theorem isPref_length_le {n h : List Char} (hp : isPref n h = true) : n.length ≤ h.length := by
  obtain ⟨t, rfl⟩ := isPref_iff.mp hp
  simp

theorem isPref_of_append_le {n X Y : List Char} (h : isPref n (X ++ Y) = true)
    (hl : n.length ≤ X.length) : isPref n X = true := by
  induction n generalizing X Y with
  | nil => simp [isPref]
  | cons a s ih =>
    cases X with
    | nil => simp at hl
    | cons b t =>
      simp only [List.cons_append, isPref] at h ⊢
      by_cases hab : a = b
      · rw [if_pos hab] at h ⊢
        exact ih h (by simpa using hl)
      · rw [if_neg hab] at h
        exact absurd h (by simp)

theorem drop_append_right (X Y : List Char) (j : Nat) :
    (X ++ Y).drop (X.length + j) = Y.drop j := by
  induction X with
  | nil => simp
  | cons c X' ih =>
    have harith : X'.length + 1 + j = (X'.length + j) + 1 := by omega
    simp only [List.cons_append, List.length_cons, harith, List.drop_succ_cons]
    exact ih

theorem drop_append_left {i : Nat} (X Y : List Char) (h : i ≤ X.length) :
    (X ++ Y).drop i = X.drop i ++ Y := by
  induction X generalizing i with
  | nil =>
    have : i = 0 := Nat.le_zero.mp (by simpa using h)
    subst this
    simp
  | cons c X' ih =>
    cases i with
    | zero => simp
    | succ i' =>
      simp only [List.cons_append, List.drop_succ_cons]
      exact ih (by simpa using h)

theorem containsSub_iff {n h : List Char} :
    containsSub n h = true ↔ ∃ A B, h = A ++ n ++ B := by
  induction h with
  | nil =>
    simp only [containsSub, List.isEmpty_iff]
    constructor
    · rintro rfl; exact ⟨[], [], rfl⟩
    · rintro ⟨A, B, hAB⟩
      have h2 := (List.append_eq_nil.mp hAB.symm).1
      exact (List.append_eq_nil.mp h2).2
  | cons c rest ih =>
    simp only [containsSub, Bool.or_eq_true]
    constructor
    · rintro (hp | hc)
      · obtain ⟨t, ht⟩ := isPref_iff.mp hp
        exact ⟨[], t, by simpa using ht⟩
      · obtain ⟨A, B, hAB⟩ := ih.mp hc
        exact ⟨c :: A, B, by simp [hAB]⟩
    · rintro ⟨A, B, hAB⟩
      cases A with
      | nil =>
        left
        exact isPref_iff.mpr ⟨B, by simpa using hAB⟩
      | cons a A' =>
        right
        injection hAB with h1 h2
        exact ih.mpr ⟨A', B, h2⟩

theorem containsSub_nil_needle (h : List Char) : containsSub [] h = true := by
  cases h <;> simp [containsSub, isPref]

theorem countPos_nil_needle (h : List Char) : countPos [] h = h.length + 1 := by
  induction h with
  | nil => simp [countPos]
  | cons c rest ih =>
    simp [countPos, isPref, ih]
    omega

theorem countPos_pos_of_occ {n h : List Char} {i : Nat} (hi : i ≤ h.length)
    (hp : isPref n (h.drop i) = true) : 1 ≤ countPos n h := by
  induction h generalizing i with
  | nil =>
    have : i = 0 := Nat.le_zero.mp (by simpa using hi)
    subst this
    simp only [List.drop_nil] at hp
    obtain ⟨t, ht⟩ := isPref_iff.mp hp
    have : n = [] := (List.append_eq_nil.mp ht.symm).1
    simp [countPos, this]
  | cons c rest ih =>
    cases i with
    | zero =>
      simp only [List.drop_zero] at hp
      simp [countPos, hp]
    | succ i' =>
      have h1 := @ih i' (by simpa using hi) (by simpa using hp)
      simp only [countPos]
      omega

theorem countPos_exists_of_pos {n h : List Char} (hc : 1 ≤ countPos n h) :
    ∃ i, i ≤ h.length ∧ isPref n (h.drop i) = true := by
  induction h with
  | nil =>
    by_cases hn : n = []
    · exact ⟨0, Nat.le_refl 0, by simp [hn, isPref]⟩
    · simp [countPos, hn] at hc
  | cons c rest ih =>
    by_cases hp : isPref n (c :: rest) = true
    · exact ⟨0, by simp, by simpa using hp⟩
    · have hc2 : 1 ≤ countPos n rest := by
        simp only [countPos, Bool.not_eq_true] at hc hp
        rw [hp] at hc
        simpa using hc
      obtain ⟨i, hi, hpi⟩ := ih hc2
      exact ⟨i + 1, by simpa using hi, by simpa using hpi⟩

theorem countPos_two_le {n h : List Char} {i j : Nat} (hij : i < j) (hj : j ≤ h.length)
    (hpi : isPref n (h.drop i) = true) (hpj : isPref n (h.drop j) = true) :
    2 ≤ countPos n h := by
  induction h generalizing i j with
  | nil =>
    have : j = 0 := Nat.le_zero.mp (by simpa using hj)
    omega
  | cons c rest ih =>
    cases i with
    | zero =>
      simp only [List.drop_zero] at hpi
      cases j with
      | zero => omega
      | succ j' =>
        have h1 : 1 ≤ countPos n rest :=
          @countPos_pos_of_occ n rest j' (by simpa using hj) (by simpa using hpj)
        simp only [countPos, hpi, if_pos]
        omega
    | succ i' =>
      cases j with
      | zero => omega
      | succ j' =>
        have h2 : 2 ≤ countPos n rest :=
          @ih i' j' (by omega) (by simpa using hj) (by simpa using hpi)
            (by simpa using hpj)
        simp only [countPos]
        omega

theorem countFrom_le_countPos (n : List Char) (skip : Nat) (h : List Char) :
    countFrom n skip h ≤ countPos n h := by
  induction h generalizing skip with
  | nil => simp [countFrom]
  | cons c rest ih =>
    cases skip with
    | succ s =>
      have := ih s
      simp only [countFrom, countPos]
      omega
    | zero =>
      by_cases hp : isPref n (c :: rest) = true
      · have := ih (n.length - 1)
        simp only [countFrom, hp, if_pos, countPos]
        omega
      · have h2 := ih 0
        have hp2 : isPref n (c :: rest) = false := by
          simpa using hp
        simp only [countFrom, hp2, countPos]
        simp only [Bool.false_eq_true, if_false]
        omega

theorem count_le_countPos (n h : List Char) : count n h ≤ countPos n h := by
  by_cases hn : n = []
  · subst hn
    rw [count, if_pos rfl, countPos_nil_needle]
  · rw [count, if_neg hn]
    exact countFrom_le_countPos n 0 h

theorem countFrom_zero_pos {n h : List Char} (hne : n ≠ []) (hc : containsSub n h = true) :
    1 ≤ countFrom n 0 h := by
  induction h with
  | nil =>
    rw [containsSub, List.isEmpty_iff] at hc
    exact absurd hc hne
  | cons c rest ih =>
    rw [containsSub, Bool.or_eq_true] at hc
    by_cases hp : isPref n (c :: rest) = true
    · simp [countFrom, hp]
    · have hc2 : containsSub n rest = true := by
        rcases hc with h1 | h1
        · exact absurd h1 hp
        · exact h1
      have := ih hc2
      have hp2 : isPref n (c :: rest) = false := by simpa using hp
      simpa [countFrom, hp2] using this

theorem le_count_of_contains {n h : List Char} (hc : containsSub n h = true) :
    1 ≤ count n h := by
  by_cases hn : n = []
  · subst hn; rw [count, if_pos rfl]; omega
  · rw [count, if_neg hn]
    exact countFrom_zero_pos hn hc

theorem countFrom_zero_of_not_contains {n h : List Char} (hc : containsSub n h = false) :
    countFrom n 0 h = 0 := by
  induction h with
  | nil => simp [countFrom]
  | cons c rest ih =>
    rw [containsSub, Bool.or_eq_false_iff] at hc
    rw [countFrom, hc.1]
    simpa using ih hc.2

theorem count_eq_zero_of_not_contains {n h : List Char} (hc : containsSub n h = false) :
    count n h = 0 := by
  by_cases hn : n = []
  · subst hn
    rw [containsSub_nil_needle] at hc
    simp at hc
  · rw [count, if_neg hn]
    exact countFrom_zero_of_not_contains hc

theorem replaceFirst_decomp {n r pre post : List Char}
    (hno : ∀ i, i < pre.length → isPref n ((pre ++ n ++ post).drop i) = false) :
    replaceFirst n r (pre ++ n ++ post) = pre ++ r ++ post := by
  induction pre with
  | nil =>
    simp only [List.nil_append]
    cases hn : n with
    | nil =>
      cases post with
      | nil => simp [replaceFirst]
      | cons c t => simp [replaceFirst, isPref]
    | cons a n' =>
      rw [← hn]
      have hself : isPref n (n ++ post) = true := isPref_self_append n post
      have hcons : n ++ post = (n ++ post).head (by simp [hn]) :: (n ++ post).tail := by
        rw [List.head_cons_tail]
      rw [hcons] at hself ⊢
      rw [replaceFirst, if_pos hself, ← hcons]
      have hd := drop_append_right n post 0
      simp only [Nat.add_zero, List.drop_zero] at hd
      rw [hd]
  | cons a pre' ih =>
    have h0 := hno 0 (by simp)
    simp only [List.cons_append, List.drop_zero] at h0
    have hrec := ih (fun i hi => by
      have := hno (i + 1) (by simp; omega)
      simpa using this)
    simp only [List.cons_append, replaceFirst, List.append_eq]
    rw [if_neg (by rw [h0]; simp), hrec]

theorem occ_self (pre n post : List Char) :
    isPref n ((pre ++ n ++ post).drop pre.length) = true := by
  have h1 : pre ++ n ++ post = pre ++ (n ++ post) := by simp
  have h2 := drop_append_right pre (n ++ post) 0
  simp only [Nat.add_zero, List.drop_zero] at h2
  rw [h1, h2]
  exact isPref_self_append n post

theorem unique_occ {n pre post : List Char} (h1 : countPos n (pre ++ n ++ post) = 1) :
    ∀ i, i ≤ (pre ++ n ++ post).length → isPref n ((pre ++ n ++ post).drop i) = true →
      i = pre.length := by
  intro i hi hp
  by_contra hne
  rcases Nat.lt_or_ge i pre.length with hlt | hge
  · have h2 := countPos_two_le hlt (by simp) hp (occ_self pre n post)
    omega
  · have hgt : pre.length < i := lt_of_le_of_ne hge (fun hq => hne hq.symm)
    have h2 := countPos_two_le hgt hi (occ_self pre n post) hp
    omega

/-- Collects everything one step of the block loop does to a content of the
shape `pre ++ n ++ post` whose only occurrence of `n` is the visible one. -/
theorem apply_step {n : List Char} (r : List Char) {pre post : List Char}
    (h1 : countPos n (pre ++ n ++ post) = 1) :
    containsSub n (pre ++ n ++ post) = true ∧ count n (pre ++ n ++ post) = 1 ∧
    replaceFirst n r (pre ++ n ++ post) = pre ++ r ++ post := by
  have hcon : containsSub n (pre ++ n ++ post) = true := containsSub_iff.mpr ⟨pre, post, rfl⟩
  have hcnt : count n (pre ++ n ++ post) = 1 := by
    have hle := count_le_countPos n (pre ++ n ++ post)
    have hge := le_count_of_contains hcon
    omega
  have hno : ∀ i, i < pre.length → isPref n ((pre ++ n ++ post).drop i) = false := by
    intro i hilt
    rcases Bool.eq_false_or_eq_true (isPref n ((pre ++ n ++ post).drop i)) with hb | hb
    · have := unique_occ h1 i (by simp; omega) hb
      omega
    · exact hb
  exact ⟨hcon, hcnt, replaceFirst_decomp hno⟩

theorem containsSub_of_append {a b h : List Char}
    (hc : containsSub (a ++ b) h = true) : containsSub a h = true := by
  obtain ⟨A, B, hAB⟩ := containsSub_iff.mp hc
  exact containsSub_iff.mpr ⟨A, b ++ B, by rw [hAB]; simp⟩

end PyStr

/-! ### Lemmas about the patch engine -/

namespace DiffManager

open PyStr

theorem splitOnFirst_some_contains {n h : List Char} {pre post : List Char}
    (hs : splitOnFirst n h = some (pre, post)) : containsSub n h = true := by
  induction h generalizing pre post with
  | nil =>
    rw [splitOnFirst] at hs
    split at hs
    · next hn => rw [hn]; exact containsSub_nil_needle []
    · cases hs
  | cons c rest ih =>
    rw [splitOnFirst] at hs
    split at hs
    · next hp => rw [containsSub, hp, Bool.true_or]
    · next hp =>
      rw [containsSub, Bool.or_eq_true]
      right
      cases hq : splitOnFirst n rest with
      | none => rw [hq] at hs; cases hs
      | some pr =>
        obtain ⟨p1, p2⟩ := pr
        exact ih hq

theorem parseBlocks_nil_of_no_marker {p : List Char}
    (h : containsSub markerBare p = false) : parseBlocks p = [] := by
  have hs : splitOnFirst startMarker p = none := by
    cases hq : splitOnFirst startMarker p with
    | none => rfl
    | some pr =>
      obtain ⟨pre, post⟩ := pr
      have hc : containsSub startMarker p = true := splitOnFirst_some_contains hq
      have hc2 : containsSub markerBare p = true :=
        @containsSub_of_append markerBare ['\n'] p hc
      rw [hc2] at h
      cases h
  rw [parseBlocks]
  cases p.length with
  | zero => rfl
  | succ k => rw [parseBlocksFuel, hs]

theorem apply_diff_no_marker {O p : List Char} (h : containsSub markerBare p = false) :
    apply_diff O p = Except.ok p := by
  rw [apply_diff]
  simp only [parseBlocks_nil_of_no_marker h, if_pos rfl, h]
  simp

theorem apply_diff_marker_no_blocks {O p : List Char} (h1 : containsSub markerBare p = true)
    (h2 : parseBlocks p = []) : apply_diff O p = Except.ok O := by
  rw [apply_diff]
  simp only [h2, if_pos rfl, h1]
  simp

theorem apply_diff_blocks {O p : List Char} (h : parseBlocks p ≠ []) :
    apply_diff O p = applyBlocks O (parseBlocks p) := by
  rw [apply_diff]
  simp only [if_neg h]

theorem applyBlocks_append_ok {bs1 : List (List Char × List Char)} {C0 C : List Char}
    (h : applyBlocks C0 bs1 = Except.ok C) (bs2 : List (List Char × List Char)) :
    applyBlocks C0 (bs1 ++ bs2) = applyBlocks C bs2 := by
  induction bs1 generalizing C0 with
  | nil =>
    rw [applyBlocks] at h
    injection h with h
    rw [h]
    simp
  | cons sr rest ih =>
    obtain ⟨s, r⟩ := sr
    rw [applyBlocks] at h
    rw [List.cons_append, applyBlocks]
    by_cases hcon : containsSub s C0 = true
    · rw [if_pos hcon] at h ⊢
      by_cases hcnt : 1 < count s C0
      · rw [if_pos hcnt] at h; cases h
      · rw [if_neg hcnt] at h ⊢
        exact ih h
    · rw [if_neg hcon] at h; cases h

theorem applyBlocks_append_err {bs1 bs2 : List (List Char × List Char)} {C0 : List Char}
    {e : PatchErr} (h : applyBlocks C0 bs1 = Except.error e) :
    applyBlocks C0 (bs1 ++ bs2) = Except.error e := by
  induction bs1 generalizing C0 with
  | nil => rw [applyBlocks] at h; cases h
  | cons sr rest ih =>
    obtain ⟨s, r⟩ := sr
    rw [applyBlocks] at h
    rw [List.cons_append, applyBlocks]
    by_cases hcon : containsSub s C0 = true
    · rw [if_pos hcon] at h ⊢
      by_cases hcnt : 1 < count s C0
      · rw [if_pos hcnt] at h ⊢; exact h
      · rw [if_neg hcnt] at h ⊢
        exact ih h
    · rw [if_neg hcon] at h ⊢; exact h

theorem applyBlocks_error_iff (bs : List (List Char × List Char)) (C0 : List Char) :
    (∃ e, applyBlocks C0 bs = Except.error e) ↔
    ∃ bs1 s r bs2, bs = bs1 ++ (s, r) :: bs2 ∧
      ∃ C, applyBlocks C0 bs1 = Except.ok C ∧ count s C ≠ 1 := by
  induction bs generalizing C0 with
  | nil =>
    constructor
    · rintro ⟨e, he⟩
      rw [applyBlocks] at he
      cases he
    · rintro ⟨bs1, s, r, bs2, hsplit, _⟩
      exact absurd hsplit.symm (List.append_ne_nil_of_right_ne_nil bs1 (by simp))
  | cons sr rest ih =>
    obtain ⟨s, r⟩ := sr
    by_cases hcon : containsSub s C0 = true
    · by_cases hcnt : 1 < count s C0
      · constructor
        · intro _
          refine ⟨[], s, r, rest, by simp, C0, by rw [applyBlocks], by omega⟩
        · intro _
          exact ⟨PatchErr.ambiguous (count s C0) s, by rw [applyBlocks, if_pos hcon, if_pos hcnt]⟩
      · have hone : count s C0 = 1 := by
          have := le_count_of_contains hcon
          omega
        have hstep : applyBlocks C0 ((s, r) :: rest) = applyBlocks (replaceFirst s r C0) rest := by
          rw [applyBlocks, if_pos hcon, if_neg hcnt]
        rw [hstep, ih]
        constructor
        · rintro ⟨bs1, s1, r1, bs2, hsplit, C, hok, hcount⟩
          refine ⟨(s, r) :: bs1, s1, r1, bs2, by rw [hsplit, List.cons_append], C, ?_, hcount⟩
          rw [applyBlocks, if_pos hcon, if_neg hcnt]
          exact hok
        · rintro ⟨bs1, s1, r1, bs2, hsplit, C, hok, hcount⟩
          cases bs1 with
          | nil =>
            rw [applyBlocks] at hok
            injection hok with hok
            injection hsplit with hs1 hs2
            injection hs1 with hs1a hs1b
            subst hok hs1a
            exact absurd hone hcount
          | cons sr0 bs1' =>
            injection hsplit with hs1 hs2
            subst hs1
            rw [applyBlocks, if_pos hcon, if_neg hcnt] at hok
            exact ⟨bs1', s1, r1, bs2, hs2, C, hok, hcount⟩
    · constructor
      · intro _
        have hz : count s C0 = 0 := count_eq_zero_of_not_contains (by simpa using hcon)
        exact ⟨[], s, r, rest, by simp, C0, by rw [applyBlocks], by omega⟩
      · intro _
        exact ⟨PatchErr.notFound s, by rw [applyBlocks, if_neg hcon]⟩

theorem applyBlocks_error_classify {bs : List (List Char × List Char)} {C0 : List Char}
    {e : PatchErr} (h : applyBlocks C0 bs = Except.error e) :
    ∃ bs1 s r bs2, bs = bs1 ++ (s, r) :: bs2 ∧
      ∃ C, applyBlocks C0 bs1 = Except.ok C ∧
        ((count s C = 0 ∧ e = PatchErr.notFound s) ∨
         (2 ≤ count s C ∧ e = PatchErr.ambiguous (count s C) s)) := by
  induction bs generalizing C0 with
  | nil => rw [applyBlocks] at h; cases h
  | cons sr rest ih =>
    obtain ⟨s, r⟩ := sr
    rw [applyBlocks] at h
    by_cases hcon : containsSub s C0 = true
    · rw [if_pos hcon] at h
      by_cases hcnt : 1 < count s C0
      · rw [if_pos hcnt] at h
        injection h with h
        refine ⟨[], s, r, rest, by simp, C0, by rw [applyBlocks], Or.inr ⟨by omega, h.symm⟩⟩
      · rw [if_neg hcnt] at h
        obtain ⟨bs1, s1, r1, bs2, hsplit, C, hok, hclass⟩ := ih h
        refine ⟨(s, r) :: bs1, s1, r1, bs2, by rw [hsplit, List.cons_append], C, ?_, hclass⟩
        rw [applyBlocks, if_pos hcon, if_neg hcnt]
        exact hok
    · rw [if_neg hcon] at h
      injection h with h
      have hz : count s C0 = 0 := count_eq_zero_of_not_contains (by simpa using hcon)
      exact ⟨[], s, r, rest, by simp, C0, by rw [applyBlocks], Or.inl ⟨hz, h.symm⟩⟩

end DiffManager

/-! ### Claim theorems -/

/-- C6: for every original content `O` and payload containing no block-start
marker `<<<<<< SEARCH` anywhere, `apply_diff O payload` returns the payload
itself verbatim, regardless of `O` (full-replacement semantics). -/
theorem c6_full_replacement (O p : List Char)
    (h : PyStr.containsSub DiffManager.markerBare p = false) :
    DiffManager.apply_diff O p = Except.ok p :=
  DiffManager.apply_diff_no_marker h

theorem c6_full_replacement_witness :
    PyStr.containsSub DiffManager.markerBare "hello".data = false ∧
    DiffManager.apply_diff "abc".data "hello".data = Except.ok "hello".data :=
  ⟨by decide, c6_full_replacement "abc".data "hello".data (by decide)⟩

/-- C7: for every original content `O` and payload that contains the
block-start marker but from which zero well-formed blocks parse,
`apply_diff O payload` returns `O` unchanged (a no-op) and never returns the
malformed payload as full file content. -/
theorem c7_marker_no_blocks_noop (O p : List Char)
    (h1 : PyStr.containsSub DiffManager.markerBare p = true)
    (h2 : DiffManager.parseBlocks p = []) :
    DiffManager.apply_diff O p = Except.ok O :=
  DiffManager.apply_diff_marker_no_blocks h1 h2

theorem c7_marker_no_blocks_noop_witness :
    (PyStr.containsSub DiffManager.markerBare "<<<<<< SEARCH\njunk".data = true ∧
     DiffManager.parseBlocks "<<<<<< SEARCH\njunk".data = []) ∧
    DiffManager.apply_diff "abc".data "<<<<<< SEARCH\njunk".data = Except.ok "abc".data :=
  ⟨⟨by decide, by decide⟩,
   c7_marker_no_blocks_noop "abc".data "<<<<<< SEARCH\njunk".data (by decide) (by decide)⟩

/-- C1 as stated is false at a concrete input: with original `"aab"` and the
single parsed block `("ab", "b")`, the search text occurs at exactly one
position and the replacement `"b"` does not contain it, yet the result
`"ab"` contains the search text again — it is recreated at the boundary
between the untouched prefix `"a"` and the inserted replacement. -/
theorem c1_claim_counterexample :
    DiffManager.parseBlocks "<<<<<< SEARCH\nab\n======\nb\n>>>>>> REPLACE".data =
      [("ab".data, "b".data)] ∧
    PyStr.countPos "ab".data "aab".data = 1 ∧
    PyStr.containsSub "ab".data "b".data = false ∧
    DiffManager.apply_diff "aab".data "<<<<<< SEARCH\nab\n======\nb\n>>>>>> REPLACE".data =
      Except.ok "ab".data ∧
    PyStr.containsSub "ab".data "ab".data = true := by
  decide

/-- C1 (amended): for a payload parsing to exactly one block `(S, R)` and an
original `O` in which `S` occurs at exactly one position, `apply_diff`
replaces that single occurrence by `R`.  The final parenthetical is weakened
as the counterexample forces: every occurrence of `S` in the result touches
the span of the inserted replacement (none lies entirely inside the untouched
text before or after it), but such an occurrence can exist even when `R`
itself does not contain `S`. -/
theorem c1_single_block_replacement (O S R p : List Char)
    (hp : DiffManager.parseBlocks p = [(S, R)])
    (h1 : PyStr.countPos S O = 1) :
    ∃ pre post, O = pre ++ S ++ post ∧
      (∀ i, i ≤ O.length → PyStr.isPref S (O.drop i) = true → i = pre.length) ∧
      DiffManager.apply_diff O p = Except.ok (pre ++ R ++ post) ∧
      (∀ i, i ≤ pre.length + R.length + post.length →
        PyStr.isPref S ((pre ++ R ++ post).drop i) = true →
          i ≤ pre.length + R.length ∧ pre.length ≤ i + S.length) := by
  obtain ⟨i0, hi0, hocc0⟩ := @PyStr.countPos_exists_of_pos S O (by omega)
  obtain ⟨u, hu⟩ := PyStr.isPref_iff.mp hocc0
  obtain ⟨pre, t, hO, hpre⟩ : ∃ pre t, O = pre ++ S ++ t ∧ pre.length = i0 := by
    refine ⟨O.take i0, u, ?_, ?_⟩
    · have h2 := List.take_append_drop i0 O
      rw [hu] at h2
      conv_lhs => rw [← h2]
      rw [List.append_assoc]
    · rw [List.length_take]
      omega
  rw [hO] at h1
  have huniq := @PyStr.unique_occ S pre t h1
  refine ⟨pre, t, hO, ?_, ?_, ?_⟩
  · intro i hi hp2
    rw [hO] at hi hp2
    exact huniq i hi hp2
  · have hstep := @PyStr.apply_step S R pre t h1
    have hne : DiffManager.parseBlocks p ≠ [] := by rw [hp]; simp
    rw [hO, DiffManager.apply_diff_blocks hne, hp, DiffManager.applyBlocks,
      if_pos hstep.1, if_neg (by rw [hstep.2.1]; omega), hstep.2.2,
      DiffManager.applyBlocks]
  · by_cases hSnil : S = []
    · subst hSnil
      have hlen := PyStr.countPos_nil_needle (pre ++ [] ++ t)
      rw [h1] at hlen
      have hlen0 : (pre ++ [] ++ t).length = 0 := by omega
      have hpre0 : pre = [] := by
        have : pre.length = 0 := by
          simp only [List.length_append, List.length_nil] at hlen0
          omega
        exact List.length_eq_zero.mp this
      have ht0 : t = [] := by
        have : t.length = 0 := by
          simp only [List.length_append, List.length_nil] at hlen0
          omega
        exact List.length_eq_zero.mp this
      subst hpre0 ht0
      intro i hi hp2
      constructor
      · simpa using hi
      · simp
    · have hSlen : 1 ≤ S.length := List.length_pos.mpr hSnil
      intro i hi hp2
      constructor
      · by_contra hgt
        push_neg at hgt
        have hL : (pre ++ R).length = pre.length + R.length := by simp
        have hdrop : (pre ++ R ++ t).drop i = t.drop (i - (pre ++ R).length) := by
          have harith : (pre ++ R).length + (i - (pre ++ R).length) = i := by
            rw [hL]; omega
          have h6 := PyStr.drop_append_right (pre ++ R) t (i - (pre ++ R).length)
          rw [harith] at h6
          exact h6
        rw [hdrop] at hp2
        have hkpos : 1 ≤ i - (pre ++ R).length := by rw [hL]; omega
        have hocc2 : PyStr.isPref S
            ((pre ++ S ++ t).drop (pre.length + S.length + (i - (pre ++ R).length))) = true := by
          have h7 := PyStr.drop_append_right (pre ++ S) t (i - (pre ++ R).length)
          have h8 : (pre ++ S).length = pre.length + S.length := by simp
          rw [h8] at h7
          rw [h7]
          exact hp2
        have h9 := PyStr.isPref_length_le hp2
        rw [List.length_drop] at h9
        have hkle : pre.length + S.length + (i - (pre ++ R).length) ≤ (pre ++ S ++ t).length := by
          simp only [List.length_append]
          omega
        have := huniq _ hkle hocc2
        omega
      · by_contra hlt
        push_neg at hlt
        have hile : i ≤ pre.length := by omega
        have hd1 : (pre ++ R ++ t).drop i = pre.drop i ++ R ++ t := by
          have h6 := @PyStr.drop_append_left i (pre ++ R) t (by simp; omega)
          have h7 := @PyStr.drop_append_left i pre R hile
          rw [h7] at h6
          exact h6
        rw [hd1] at hp2
        have hp3 : PyStr.isPref S (pre.drop i) = true := by
          have h8 : PyStr.isPref S (pre.drop i ++ R) = true := by
            refine PyStr.isPref_of_append_le hp2 ?_
            rw [List.length_append, List.length_drop]
            omega
          refine PyStr.isPref_of_append_le h8 ?_
          rw [List.length_drop]
          omega
        have hoccO : PyStr.isPref S ((pre ++ S ++ t).drop i) = true := by
          have h9 : (pre ++ S ++ t).drop i = pre.drop i ++ S ++ t := by
            have h6 := @PyStr.drop_append_left i (pre ++ S) t (by simp; omega)
            have h7 := @PyStr.drop_append_left i pre S hile
            rw [h7] at h6
            exact h6
          rw [h9]
          exact PyStr.isPref_append_of (PyStr.isPref_append_of hp3 S) t
        have := huniq i (by simp; omega) hoccO
        omega

theorem c1_single_block_replacement_witness :
    (DiffManager.parseBlocks "<<<<<< SEARCH\ne\n======\noo\n>>>>>> REPLACE".data =
       [("e".data, "oo".data)] ∧
     PyStr.countPos "e".data "xey".data = 1) ∧
    (∃ pre post, "xey".data = pre ++ "e".data ++ post ∧
      (∀ i, i ≤ "xey".data.length → PyStr.isPref "e".data ("xey".data.drop i) = true →
        i = pre.length) ∧
      DiffManager.apply_diff "xey".data "<<<<<< SEARCH\ne\n======\noo\n>>>>>> REPLACE".data =
        Except.ok (pre ++ "oo".data ++ post) ∧
      (∀ i, i ≤ pre.length + "oo".data.length + post.length →
        PyStr.isPref "e".data ((pre ++ "oo".data ++ post).drop i) = true →
          i ≤ pre.length + "oo".data.length ∧ pre.length ≤ i + "e".data.length)) :=
  ⟨⟨by decide, by decide⟩,
   c1_single_block_replacement "xey".data "e".data "oo".data
     "<<<<<< SEARCH\ne\n======\noo\n>>>>>> REPLACE".data (by decide) (by decide)⟩

/-- C2: when at least one block parses from the payload, `apply_diff` fails
(raises, modelled as `Except.error`) if and only if some block's search text
occurs a number of times different from one — occurrences counted as the code
counts them, non-overlapping (cf. the spec's "2+ non-overlapping positions")
— in the content accumulated from the preceding blocks; a zero count yields
the not-found error, a count of two or more yields the ambiguity error
carrying that count.  In the failure case only the error is returned: no
modified content is produced, so the caller's original is left unchanged. -/
theorem c2_error_characterization (O p : List Char) (h : DiffManager.parseBlocks p ≠ []) :
    ((∃ e, DiffManager.apply_diff O p = Except.error e) ↔
      ∃ bs1 s r bs2, DiffManager.parseBlocks p = bs1 ++ (s, r) :: bs2 ∧
        ∃ C, DiffManager.applyBlocks O bs1 = Except.ok C ∧ PyStr.count s C ≠ 1) ∧
    (∀ e, DiffManager.apply_diff O p = Except.error e →
      ∃ bs1 s r bs2, DiffManager.parseBlocks p = bs1 ++ (s, r) :: bs2 ∧
        ∃ C, DiffManager.applyBlocks O bs1 = Except.ok C ∧
          ((PyStr.count s C = 0 ∧ e = DiffManager.PatchErr.notFound s) ∨
           (2 ≤ PyStr.count s C ∧ e = DiffManager.PatchErr.ambiguous (PyStr.count s C) s))) := by
  rw [DiffManager.apply_diff_blocks h]
  exact ⟨DiffManager.applyBlocks_error_iff (DiffManager.parseBlocks p) O,
    fun e he => DiffManager.applyBlocks_error_classify he⟩

theorem c2_error_characterization_witness :
    DiffManager.parseBlocks "<<<<<< SEARCH\nx\n======\ny\n>>>>>> REPLACE".data ≠ [] ∧
    (((∃ e, DiffManager.apply_diff "xx".data
          "<<<<<< SEARCH\nx\n======\ny\n>>>>>> REPLACE".data = Except.error e) ↔
      ∃ bs1 s r bs2,
        DiffManager.parseBlocks "<<<<<< SEARCH\nx\n======\ny\n>>>>>> REPLACE".data =
          bs1 ++ (s, r) :: bs2 ∧
        ∃ C, DiffManager.applyBlocks "xx".data bs1 = Except.ok C ∧ PyStr.count s C ≠ 1) ∧
    (∀ e, DiffManager.apply_diff "xx".data
        "<<<<<< SEARCH\nx\n======\ny\n>>>>>> REPLACE".data = Except.error e →
      ∃ bs1 s r bs2,
        DiffManager.parseBlocks "<<<<<< SEARCH\nx\n======\ny\n>>>>>> REPLACE".data =
          bs1 ++ (s, r) :: bs2 ∧
        ∃ C, DiffManager.applyBlocks "xx".data bs1 = Except.ok C ∧
          ((PyStr.count s C = 0 ∧ e = DiffManager.PatchErr.notFound s) ∨
           (2 ≤ PyStr.count s C ∧
            e = DiffManager.PatchErr.ambiguous (PyStr.count s C) s)))) :=
  ⟨by decide,
   c2_error_characterization "xx".data "<<<<<< SEARCH\nx\n======\ny\n>>>>>> REPLACE".data
     (by decide)⟩

/-- C9: for an original `A ++ S1 ++ B ++ S2 ++ C` holding two disjoint edit
targets, where each search text occurs at exactly one position both in the
original and after the other block's replacement has been applied (this is
the claim's "each applies uniquely" plus "neither search text overlaps the
other's replace text"), applying the two blocks through `apply_diff` yields
the same final content for both payload orders. -/
theorem c9_disjoint_blocks_commute (A S1 R1 B S2 R2 C p12 p21 : List Char)
    (hp12 : DiffManager.parseBlocks p12 = [(S1, R1), (S2, R2)])
    (hp21 : DiffManager.parseBlocks p21 = [(S2, R2), (S1, R1)])
    (h1 : PyStr.countPos S1 (A ++ S1 ++ B ++ S2 ++ C) = 1)
    (h2 : PyStr.countPos S2 (A ++ S1 ++ B ++ S2 ++ C) = 1)
    (h3 : PyStr.countPos S2 (A ++ R1 ++ B ++ S2 ++ C) = 1)
    (h4 : PyStr.countPos S1 (A ++ S1 ++ B ++ R2 ++ C) = 1) :
    DiffManager.apply_diff (A ++ S1 ++ B ++ S2 ++ C) p12 =
      Except.ok (A ++ R1 ++ B ++ R2 ++ C) ∧
    DiffManager.apply_diff (A ++ S1 ++ B ++ S2 ++ C) p21 =
      Except.ok (A ++ R1 ++ B ++ R2 ++ C) := by
  have hO1 : A ++ S1 ++ B ++ S2 ++ C = A ++ S1 ++ (B ++ S2 ++ C) := by
    simp [List.append_assoc]
  have hO2 : A ++ R1 ++ B ++ S2 ++ C = A ++ R1 ++ (B ++ S2 ++ C) := by
    simp [List.append_assoc]
  have hO3 : A ++ S1 ++ B ++ R2 ++ C = A ++ S1 ++ (B ++ R2 ++ C) := by
    simp [List.append_assoc]
  have hO4 : A ++ R1 ++ B ++ R2 ++ C = A ++ R1 ++ (B ++ R2 ++ C) := by
    simp [List.append_assoc]
  have hne12 : DiffManager.parseBlocks p12 ≠ [] := by rw [hp12]; simp
  have hne21 : DiffManager.parseBlocks p21 ≠ [] := by rw [hp21]; simp
  constructor
  · have step1 := @PyStr.apply_step S1 R1 A (B ++ S2 ++ C) (hO1 ▸ h1)
    have step2 := @PyStr.apply_step S2 R2 (A ++ R1 ++ B) C h3
    rw [DiffManager.apply_diff_blocks hne12, hp12, hO1, DiffManager.applyBlocks,
      if_pos step1.1, if_neg (by rw [step1.2.1]; omega), step1.2.2, ← hO2,
      DiffManager.applyBlocks,
      if_pos step2.1, if_neg (by rw [step2.2.1]; omega), step2.2.2,
      DiffManager.applyBlocks]
  · have step1 := @PyStr.apply_step S2 R2 (A ++ S1 ++ B) C h2
    have step2 := @PyStr.apply_step S1 R1 A (B ++ R2 ++ C) (hO3 ▸ h4)
    rw [DiffManager.apply_diff_blocks hne21, hp21, DiffManager.applyBlocks,
      if_pos step1.1, if_neg (by rw [step1.2.1]; omega), step1.2.2, hO3,
      DiffManager.applyBlocks,
      if_pos step2.1, if_neg (by rw [step2.2.1]; omega), step2.2.2, ← hO4,
      DiffManager.applyBlocks]

theorem c9_disjoint_blocks_commute_witness :
    (DiffManager.parseBlocks
       "<<<<<< SEARCH\na\n======\nc\n>>>>>> REPLACE<<<<<< SEARCH\nb\n======\nd\n>>>>>> REPLACE".data =
       [("a".data, "c".data), ("b".data, "d".data)] ∧
     DiffManager.parseBlocks
       "<<<<<< SEARCH\nb\n======\nd\n>>>>>> REPLACE<<<<<< SEARCH\na\n======\nc\n>>>>>> REPLACE".data =
       [("b".data, "d".data), ("a".data, "c".data)] ∧
     PyStr.countPos "a".data ("x".data ++ "a".data ++ "y".data ++ "b".data ++ "z".data) = 1 ∧
     PyStr.countPos "b".data ("x".data ++ "a".data ++ "y".data ++ "b".data ++ "z".data) = 1 ∧
     PyStr.countPos "b".data ("x".data ++ "c".data ++ "y".data ++ "b".data ++ "z".data) = 1 ∧
     PyStr.countPos "a".data ("x".data ++ "a".data ++ "y".data ++ "d".data ++ "z".data) = 1) ∧
    (DiffManager.apply_diff ("x".data ++ "a".data ++ "y".data ++ "b".data ++ "z".data)
       "<<<<<< SEARCH\na\n======\nc\n>>>>>> REPLACE<<<<<< SEARCH\nb\n======\nd\n>>>>>> REPLACE".data =
       Except.ok ("x".data ++ "c".data ++ "y".data ++ "d".data ++ "z".data) ∧
     DiffManager.apply_diff ("x".data ++ "a".data ++ "y".data ++ "b".data ++ "z".data)
       "<<<<<< SEARCH\nb\n======\nd\n>>>>>> REPLACE<<<<<< SEARCH\na\n======\nc\n>>>>>> REPLACE".data =
       Except.ok ("x".data ++ "c".data ++ "y".data ++ "d".data ++ "z".data)) :=
  ⟨⟨by decide, by decide, by decide, by decide, by decide, by decide⟩,
   c9_disjoint_blocks_commute "x".data "a".data "c".data "y".data "b".data "d".data "z".data
     "<<<<<< SEARCH\na\n======\nc\n>>>>>> REPLACE<<<<<< SEARCH\nb\n======\nd\n>>>>>> REPLACE".data
     "<<<<<< SEARCH\nb\n======\nd\n>>>>>> REPLACE<<<<<< SEARCH\na\n======\nc\n>>>>>> REPLACE".data
     (by decide) (by decide) (by decide) (by decide) (by decide) (by decide)⟩

/-! ### Lemmas about the repair loop -/

namespace CodeAgentService

theorem loopAux_zero (env : Env) (disk : String → Option (List Char))
    (changes : List (String × PyVal)) : loopAux env 0 disk changes = (false, 0, []) := rfl

theorem loopAux_succ (env : Env) (N : Nat) (disk : String → Option (List Char))
    (changes : List (String × PyVal)) :
    loopAux env (N + 1) disk changes =
      (if (processRound env disk changes).errors = [] then
        (true, 1, [processRound env disk changes])
      else if N = 0 then (false, 1, [processRound env disk changes])
      else
        ((loopAux env N (processRound env disk changes).disk
            (dictUpdate changes
              (env.fix
                (brokenCode (processRound env disk changes).disk changes
                  (processRound env disk changes).errors)
                (processRound env disk changes).errors))).1,
         (loopAux env N (processRound env disk changes).disk
            (dictUpdate changes
              (env.fix
                (brokenCode (processRound env disk changes).disk changes
                  (processRound env disk changes).errors)
                (processRound env disk changes).errors))).2.1 + 1,
         processRound env disk changes ::
           (loopAux env N (processRound env disk changes).disk
              (dictUpdate changes
                (env.fix
                  (brokenCode (processRound env disk changes).disk changes
                    (processRound env disk changes).errors)
                  (processRound env disk changes).errors))).2.2)) := rfl

theorem loopAux_spec (env : Env) (N : Nat) (disk : String → Option (List Char))
    (changes : List (String × PyVal)) :
    (loopAux env N disk changes).2.1 ≤ N ∧
    ((loopAux env N disk changes).1 = true ↔
      ∃ r ∈ (loopAux env N disk changes).2.2, r.errors = []) ∧
    ((loopAux env N disk changes).1 = false → (loopAux env N disk changes).2.1 = N) := by
  induction N generalizing disk changes with
  | zero =>
    refine ⟨Nat.le_refl 0, ?_, fun _ => rfl⟩
    show false = true ↔ ∃ r ∈ ([] : List RoundResult), r.errors = []
    simp
  | succ N ih =>
    rw [loopAux_succ]
    by_cases hr : (processRound env disk changes).errors = []
    · rw [if_pos hr]
      refine ⟨?_, ?_, ?_⟩
      · show 1 ≤ N + 1
        omega
      · show true = true ↔ ∃ r ∈ [processRound env disk changes], r.errors = []
        simp only [true_iff]
        exact ⟨processRound env disk changes, by simp, hr⟩
      · intro hf
        simp at hf
    · rw [if_neg hr]
      by_cases hN : N = 0
      · subst hN
        rw [if_pos rfl]
        refine ⟨?_, ?_, fun _ => rfl⟩
        · show 1 ≤ 0 + 1
          omega
        · show false = true ↔ ∃ r ∈ [processRound env disk changes], r.errors = []
          simp only [Bool.false_eq_true, false_iff]
          rintro ⟨r, hrmem, hrerr⟩
          simp only [List.mem_singleton] at hrmem
          subst hrmem
          exact hr hrerr
      · rw [if_neg hN]
        obtain ⟨ihle, ihiff, ihfalse⟩ :=
          ih (processRound env disk changes).disk
            (dictUpdate changes
              (env.fix
                (brokenCode (processRound env disk changes).disk changes
                  (processRound env disk changes).errors)
                (processRound env disk changes).errors))
        set next := loopAux env N (processRound env disk changes).disk
          (dictUpdate changes
            (env.fix
              (brokenCode (processRound env disk changes).disk changes
                (processRound env disk changes).errors)
              (processRound env disk changes).errors)) with hnext
        refine ⟨?_, ?_, ?_⟩
        · show next.2.1 + 1 ≤ N + 1
          omega
        · show next.1 = true ↔
            ∃ r ∈ processRound env disk changes :: next.2.2, r.errors = []
          rw [ihiff]
          constructor
          · rintro ⟨r, hrmem, hrerr⟩
            exact ⟨r, List.mem_cons_of_mem _ hrmem, hrerr⟩
          · rintro ⟨r, hrmem, hrerr⟩
            rcases List.mem_cons.mp hrmem with rfl | hrmem2
            · exact absurd hrerr hr
            · exact ⟨r, hrmem2, hrerr⟩
        · intro hf
          show next.2.1 + 1 = N + 1
          rw [ihfalse hf]

end CodeAgentService

/-- C3: the retry loop (with budget `N`; the source hard-codes `N = 3` inside
`validate_and_fix`) terminates within at most `N` apply-and-validate rounds;
it returns `true` iff some executed round reports no failing file (every
processed file's validation is Pass), which by construction is the last
executed round; on `false` it has executed exactly `N` rounds.  For a
non-empty ChangeSet `validate_and_fix` is exactly this loop at budget 3. -/
theorem c3_retry_loop_bounds (env : CodeAgentService.Env)
    (disk : String → Option (List Char)) (changes : List (String × CodeAgentService.PyVal))
    (N : Nat) (h : changes ≠ []) :
    (CodeAgentService.loopAux env N disk changes).2.1 ≤ N ∧
    ((CodeAgentService.loopAux env N disk changes).1 = true ↔
      ∃ r ∈ (CodeAgentService.loopAux env N disk changes).2.2,
        CodeAgentService.RoundResult.errors r = []) ∧
    ((CodeAgentService.loopAux env N disk changes).1 = false →
      (CodeAgentService.loopAux env N disk changes).2.1 = N) ∧
    CodeAgentService.validate_and_fix env disk changes =
      CodeAgentService.loopAux env 3 disk changes := by
  obtain ⟨h1, h2, h3⟩ := CodeAgentService.loopAux_spec env N disk changes
  exact ⟨h1, h2, h3, by rw [CodeAgentService.validate_and_fix, if_neg h]⟩

theorem c3_retry_loop_bounds_witness :
    Fixtures.changes0 ≠ [] ∧
    ((CodeAgentService.loopAux Fixtures.env0 3 Fixtures.disk0 Fixtures.changes0).2.1 ≤ 3 ∧
     ((CodeAgentService.loopAux Fixtures.env0 3 Fixtures.disk0 Fixtures.changes0).1 = true ↔
       ∃ r ∈ (CodeAgentService.loopAux Fixtures.env0 3 Fixtures.disk0 Fixtures.changes0).2.2,
         CodeAgentService.RoundResult.errors r = []) ∧
     ((CodeAgentService.loopAux Fixtures.env0 3 Fixtures.disk0 Fixtures.changes0).1 = false →
       (CodeAgentService.loopAux Fixtures.env0 3 Fixtures.disk0 Fixtures.changes0).2.1 = 3) ∧
     CodeAgentService.validate_and_fix Fixtures.env0 Fixtures.disk0 Fixtures.changes0 =
       CodeAgentService.loopAux Fixtures.env0 3 Fixtures.disk0 Fixtures.changes0) :=
  ⟨by simp [Fixtures.changes0],
   c3_retry_loop_bounds Fixtures.env0 Fixtures.disk0 Fixtures.changes0 3
     (by simp [Fixtures.changes0])⟩

namespace CodeAgentService

theorem processEntry_none {env : Env} {acc : RoundResult} {fname : String} {payload : PyVal}
    (h : resolvePayload payload = none) :
    processEntry env acc fname payload = acc := by
  rw [processEntry, h]

theorem processEntry_err {env : Env} {acc : RoundResult} {fname : String} {payload : PyVal}
    {content : List Char} {e : DiffManager.PatchErr}
    (h1 : resolvePayload payload = some content)
    (h2 : resolveDiff acc.disk fname content = Except.error e) :
    processEntry env acc fname payload =
      { acc with errors := acc.errors ++ [(fname, patchErrMsg e)] } := by
  rw [processEntry, h1]
  dsimp only
  rw [h2]

theorem processEntry_ok_fail {env : Env} {acc : RoundResult} {fname : String} {payload : PyVal}
    {content final err : List Char}
    (h1 : resolvePayload payload = some content)
    (h2 : resolveDiff acc.disk fname content = Except.ok final)
    (h3 : env.check fname final = some err) :
    processEntry env acc fname payload =
      { disk := fun g => if g = fname then some final else acc.disk g,
        errors := acc.errors ++ [(fname, err)],
        written := acc.written ++ [fname],
        validated := acc.validated ++ [fname],
        staged := acc.staged } := by
  rw [processEntry, h1]
  dsimp only
  rw [h2]
  dsimp only
  rw [h3]

theorem processEntry_ok_pass {env : Env} {acc : RoundResult} {fname : String} {payload : PyVal}
    {content final : List Char}
    (h1 : resolvePayload payload = some content)
    (h2 : resolveDiff acc.disk fname content = Except.ok final)
    (h3 : env.check fname final = none) :
    processEntry env acc fname payload =
      { disk := fun g => if g = fname then some final else acc.disk g,
        errors := acc.errors,
        written := acc.written ++ [fname],
        validated := acc.validated ++ [fname],
        staged := acc.staged ++ [fname] } := by
  rw [processEntry, h1]
  dsimp only
  rw [h2]
  dsimp only
  rw [h3]

theorem processEntry_untouched {env : Env} {acc : RoundResult} {fname : String}
    {payload : PyVal} {g : String} (hne : fname ≠ g) :
    (processEntry env acc fname payload).disk g = acc.disk g ∧
    ((g ∈ (processEntry env acc fname payload).written) ↔ g ∈ acc.written) ∧
    ((g ∈ (processEntry env acc fname payload).validated) ↔ g ∈ acc.validated) := by
  have hgne : ¬ (g = fname) := fun hq => hne hq.symm
  rcases hres : resolvePayload payload with _ | content
  · rw [processEntry_none hres]
    exact ⟨rfl, Iff.rfl, Iff.rfl⟩
  · rcases happ : resolveDiff acc.disk fname content with e | final
    · rw [processEntry_err hres happ]
      exact ⟨rfl, Iff.rfl, Iff.rfl⟩
    · rcases hchk : env.check fname final with _ | err
      · rw [processEntry_ok_pass hres happ hchk]
        exact ⟨by simp [hgne], by simp [List.mem_append, hgne],
          by simp [List.mem_append, hgne]⟩
      · rw [processEntry_ok_fail hres happ hchk]
        exact ⟨by simp [hgne], by simp [List.mem_append, hgne],
          by simp [List.mem_append, hgne]⟩

theorem foldlEntries_untouched (env : Env) (g : String) (l : List (String × PyVal)) :
    ∀ acc : RoundResult, (∀ e ∈ l, e.1 ≠ g ∨ resolvePayload e.2 = none) →
      ((l.foldl (fun a e => processEntry env a e.1 e.2) acc).disk g = acc.disk g ∧
       ((g ∈ (l.foldl (fun a e => processEntry env a e.1 e.2) acc).written) ↔
         g ∈ acc.written) ∧
       ((g ∈ (l.foldl (fun a e => processEntry env a e.1 e.2) acc).validated) ↔
         g ∈ acc.validated)) := by
  induction l with
  | nil => exact fun acc _ => ⟨rfl, Iff.rfl, Iff.rfl⟩
  | cons e t ih =>
    intro acc hl
    rw [List.foldl_cons]
    have hstep : (processEntry env acc e.1 e.2).disk g = acc.disk g ∧
        ((g ∈ (processEntry env acc e.1 e.2).written) ↔ g ∈ acc.written) ∧
        ((g ∈ (processEntry env acc e.1 e.2).validated) ↔ g ∈ acc.validated) := by
      rcases hl e (List.mem_cons_self e t) with hne | hskip
      · exact processEntry_untouched hne
      · rw [processEntry_none hskip]
        exact ⟨rfl, Iff.rfl, Iff.rfl⟩
    have hrest := ih (processEntry env acc e.1 e.2)
      (fun x hx => hl x (List.mem_cons_of_mem _ hx))
    exact ⟨hrest.1.trans hstep.1, hrest.2.1.trans hstep.2.1, hrest.2.2.trans hstep.2.2⟩

theorem nodup_key_unique {l : List (String × PyVal)}
    (hnd : (l.map Prod.fst).Nodup) {k : String} {a b : PyVal}
    (ha : (k, a) ∈ l) (hb : (k, b) ∈ l) : a = b := by
  induction l with
  | nil => cases ha
  | cons e t ih =>
    obtain ⟨k0, v0⟩ := e
    rw [List.map_cons, List.nodup_cons] at hnd
    rcases List.mem_cons.mp ha with heq1 | hat
    · rcases List.mem_cons.mp hb with heq2 | hbt
      · exact congrArg Prod.snd (heq1.trans heq2.symm)
      · exfalso
        injection heq1 with hk hv
        apply hnd.1
        rw [← hk]
        exact List.mem_map.mpr ⟨(k, b), hbt, rfl⟩
    · rcases List.mem_cons.mp hb with heq2 | hbt
      · exfalso
        injection heq2 with hk hv
        apply hnd.1
        rw [← hk]
        exact List.mem_map.mpr ⟨(k, a), hat, rfl⟩
      · exact ih hnd.2 hat hbt

end CodeAgentService

/-- C4: a ChangeSet entry whose payload is neither a string nor a dict
carrying a recognized `"content"` key whose value (after the one-level
unwrap) is a string is rejected by the payload-shape checks of
`validate_and_fix`: in the apply-and-validate round the entry is skipped, so
the payload is never applied or written to the target file (the file tree is
unchanged at that path) and the file is never validated. -/
theorem c4_bad_payload_never_written (env : CodeAgentService.Env)
    (disk : String → Option (List Char)) (changes : List (String × CodeAgentService.PyVal))
    (fname : String) (v : CodeAgentService.PyVal)
    (hmem : (fname, v) ∈ changes)
    (hnd : (changes.map Prod.fst).Nodup)
    (hres : CodeAgentService.resolvePayload v = none) :
    (CodeAgentService.processRound env disk changes).disk fname = disk fname ∧
    fname ∉ (CodeAgentService.processRound env disk changes).written ∧
    fname ∉ (CodeAgentService.processRound env disk changes).validated := by
  have hl : ∀ e ∈ changes, e.1 ≠ fname ∨ CodeAgentService.resolvePayload e.2 = none := by
    intro e he
    obtain ⟨k0, v0⟩ := e
    by_cases hk : k0 = fname
    · right
      subst hk
      have hv : v0 = v := CodeAgentService.nodup_key_unique hnd he hmem
      rw [hv, hres]
    · exact Or.inl hk
  have h := CodeAgentService.foldlEntries_untouched env fname changes
    ⟨disk, [], [], [], []⟩ hl
  rw [CodeAgentService.processRound]
  refine ⟨h.1, fun hmem2 => ?_, fun hmem2 => ?_⟩
  · exact absurd (h.2.1.mp hmem2) (List.not_mem_nil fname)
  · exact absurd (h.2.2.mp hmem2) (List.not_mem_nil fname)

theorem c4_bad_payload_never_written_witness :
    (("a.txt", CodeAgentService.PyVal.other) ∈ Fixtures.changes4 ∧
     (Fixtures.changes4.map Prod.fst).Nodup ∧
     CodeAgentService.resolvePayload CodeAgentService.PyVal.other = none) ∧
    ((CodeAgentService.processRound Fixtures.env4 Fixtures.disk4 Fixtures.changes4).disk
        "a.txt" = Fixtures.disk4 "a.txt" ∧
     "a.txt" ∉ (CodeAgentService.processRound Fixtures.env4 Fixtures.disk4
        Fixtures.changes4).written ∧
     "a.txt" ∉ (CodeAgentService.processRound Fixtures.env4 Fixtures.disk4
        Fixtures.changes4).validated) :=
  ⟨⟨by simp [Fixtures.changes4], by simp [Fixtures.changes4], rfl⟩,
   c4_bad_payload_never_written Fixtures.env4 Fixtures.disk4 Fixtures.changes4
     "a.txt" CodeAgentService.PyVal.other (by simp [Fixtures.changes4])
     (by simp [Fixtures.changes4]) rfl⟩

namespace CodeAgentService

open PyStr

theorem processEntry_written_mono {env : Env} {acc : RoundResult} {fname : String}
    {payload : PyVal} {g : String} (h : g ∈ acc.written) :
    g ∈ (processEntry env acc fname payload).written := by
  rcases hres : resolvePayload payload with _ | content
  · rw [processEntry_none hres]; exact h
  · rcases happ : resolveDiff acc.disk fname content with e | final
    · rw [processEntry_err hres happ]; exact h
    · rcases hchk : env.check fname final with _ | err
      · rw [processEntry_ok_pass hres happ hchk]
        exact List.mem_append_left _ h
      · rw [processEntry_ok_fail hres happ hchk]
        exact List.mem_append_left _ h

theorem processEntry_validated_mono {env : Env} {acc : RoundResult} {fname : String}
    {payload : PyVal} {g : String} (h : g ∈ acc.validated) :
    g ∈ (processEntry env acc fname payload).validated := by
  rcases hres : resolvePayload payload with _ | content
  · rw [processEntry_none hres]; exact h
  · rcases happ : resolveDiff acc.disk fname content with e | final
    · rw [processEntry_err hres happ]; exact h
    · rcases hchk : env.check fname final with _ | err
      · rw [processEntry_ok_pass hres happ hchk]
        exact List.mem_append_left _ h
      · rw [processEntry_ok_fail hres happ hchk]
        exact List.mem_append_left _ h

theorem processEntry_plain_self {env : Env} {acc : RoundResult} {fname : String}
    {s : List Char} (hmark : containsSub DiffManager.markerBare s = false) :
    fname ∈ (processEntry env acc fname (PyVal.str s)).written ∧
    fname ∈ (processEntry env acc fname (PyVal.str s)).validated := by
  have hres : resolvePayload (PyVal.str s) = some s := rfl
  have happ : resolveDiff acc.disk fname s = Except.ok s := by
    rw [resolveDiff, if_neg (by simp [hmark])]
  rcases hchk : env.check fname s with _ | err
  · rw [processEntry_ok_pass hres happ hchk]
    exact ⟨List.mem_append_right _ (by simp), List.mem_append_right _ (by simp)⟩
  · rw [processEntry_ok_fail hres happ hchk]
    exact ⟨List.mem_append_right _ (by simp), List.mem_append_right _ (by simp)⟩

theorem foldlEntries_written_mono (env : Env) (g : String) (l : List (String × PyVal)) :
    ∀ acc : RoundResult, g ∈ acc.written →
      g ∈ (l.foldl (fun a e => processEntry env a e.1 e.2) acc).written := by
  induction l with
  | nil => exact fun acc h => h
  | cons e t ih =>
    intro acc h
    rw [List.foldl_cons]
    exact ih _ (processEntry_written_mono h)

theorem foldlEntries_validated_mono (env : Env) (g : String) (l : List (String × PyVal)) :
    ∀ acc : RoundResult, g ∈ acc.validated →
      g ∈ (l.foldl (fun a e => processEntry env a e.1 e.2) acc).validated := by
  induction l with
  | nil => exact fun acc h => h
  | cons e t ih =>
    intro acc h
    rw [List.foldl_cons]
    exact ih _ (processEntry_validated_mono h)

theorem foldlEntries_mem_written (env : Env) (g : String) (s : List Char)
    (hmark : containsSub DiffManager.markerBare s = false) (l : List (String × PyVal)) :
    ∀ acc : RoundResult, (g, PyVal.str s) ∈ l →
      g ∈ (l.foldl (fun a e => processEntry env a e.1 e.2) acc).written ∧
      g ∈ (l.foldl (fun a e => processEntry env a e.1 e.2) acc).validated := by
  induction l with
  | nil => intro acc h; cases h
  | cons e t ih =>
    intro acc hmem
    rw [List.foldl_cons]
    rcases List.mem_cons.mp hmem with heq | hmem2
    · rw [← heq]
      have hself := @processEntry_plain_self env acc g s hmark
      exact ⟨foldlEntries_written_mono env g t _ hself.1,
        foldlEntries_validated_mono env g t _ hself.2⟩
    · exact ih (processEntry env acc e.1 e.2) hmem2

theorem brokenCode_keys (disk : String → Option (List Char)) (changes : List (String × PyVal))
    (errors : List (String × List Char)) :
    (brokenCode disk changes errors).map Prod.fst = errors.map Prod.fst := by
  rw [brokenCode, List.map_map]
  rfl

theorem processEntry_errkeys_mono {env : Env} {acc : RoundResult} {fname : String}
    {payload : PyVal} {g : String} (h : g ∈ acc.errors.map Prod.fst) :
    g ∈ (processEntry env acc fname payload).errors.map Prod.fst := by
  rcases hres : resolvePayload payload with _ | content
  · rw [processEntry_none hres]; exact h
  · rcases happ : resolveDiff acc.disk fname content with e | final
    · rw [processEntry_err hres happ]
      show g ∈ (acc.errors ++ [(fname, patchErrMsg e)]).map Prod.fst
      rw [List.map_append]
      exact List.mem_append_left _ h
    · rcases hchk : env.check fname final with _ | err
      · rw [processEntry_ok_pass hres happ hchk]
        exact h
      · rw [processEntry_ok_fail hres happ hchk]
        show g ∈ (acc.errors ++ [(fname, err)]).map Prod.fst
        rw [List.map_append]
        exact List.mem_append_left _ h

theorem foldlEntries_errkeys_mono (env : Env) (g : String) (l : List (String × PyVal)) :
    ∀ acc : RoundResult, g ∈ acc.errors.map Prod.fst →
      g ∈ (l.foldl (fun a e => processEntry env a e.1 e.2) acc).errors.map Prod.fst := by
  induction l with
  | nil => exact fun acc h => h
  | cons e t ih =>
    intro acc h
    rw [List.foldl_cons]
    exact ih _ (processEntry_errkeys_mono h)

theorem processEntry_resolvable_self {env : Env} {acc : RoundResult} {fname : String}
    {payload : PyVal} {content : List Char}
    (hres : resolvePayload payload = some content) :
    (fname ∈ (processEntry env acc fname payload).written ∧
     fname ∈ (processEntry env acc fname payload).validated) ∨
    fname ∈ (processEntry env acc fname payload).errors.map Prod.fst := by
  rcases happ : resolveDiff acc.disk fname content with e | final
  · right
    rw [processEntry_err hres happ]
    show fname ∈ (acc.errors ++ [(fname, patchErrMsg e)]).map Prod.fst
    rw [List.map_append]
    refine List.mem_append_right _ ?_
    simp
  · left
    rcases hchk : env.check fname final with _ | err
    · rw [processEntry_ok_pass hres happ hchk]
      exact ⟨List.mem_append_right _ (by simp), List.mem_append_right _ (by simp)⟩
    · rw [processEntry_ok_fail hres happ hchk]
      exact ⟨List.mem_append_right _ (by simp), List.mem_append_right _ (by simp)⟩

theorem foldlEntries_processed (env : Env) (g : String) (v : PyVal) (s : List Char)
    (hres : resolvePayload v = some s) (l : List (String × PyVal)) :
    ∀ acc : RoundResult, (g, v) ∈ l →
      ((g ∈ (l.foldl (fun a e => processEntry env a e.1 e.2) acc).written ∧
        g ∈ (l.foldl (fun a e => processEntry env a e.1 e.2) acc).validated) ∨
       g ∈ (l.foldl (fun a e => processEntry env a e.1 e.2) acc).errors.map Prod.fst) := by
  induction l with
  | nil => intro acc h; cases h
  | cons e t ih =>
    intro acc hmem
    rw [List.foldl_cons]
    rcases List.mem_cons.mp hmem with heq | hmem2
    · rw [← heq]
      rcases @processEntry_resolvable_self env acc g v s hres with hl | hr
      · exact Or.inl ⟨foldlEntries_written_mono env g t _ hl.1,
          foldlEntries_validated_mono env g t _ hl.2⟩
      · exact Or.inr (foldlEntries_errkeys_mono env g t _ hr)
    · exact ih (processEntry env acc e.1 e.2) hmem2

end CodeAgentService

/-- C5 as stated is false at a concrete session: in the trace of
`validate_and_fix` below, `a.py` passes validation in round 1 (it is staged
there) and only `b.py` fails, yet round 2 writes and validates `a.py` again —
the loop re-processes the whole ChangeSet every attempt, not only the failing
files. -/
theorem c5_claim_counterexample :
    (CodeAgentService.validate_and_fix Fixtures.env5 Fixtures.disk5 Fixtures.changes5).2.2.map
        CodeAgentService.RoundResult.staged = [["a.py"], ["a.py", "b.py"]] ∧
    (CodeAgentService.validate_and_fix Fixtures.env5 Fixtures.disk5 Fixtures.changes5).2.2.map
        CodeAgentService.RoundResult.written =
      [["a.py", "b.py"], ["a.py", "b.py"]] ∧
    (CodeAgentService.validate_and_fix Fixtures.env5 Fixtures.disk5 Fixtures.changes5).2.2.map
        CodeAgentService.RoundResult.validated =
      [["a.py", "b.py"], ["a.py", "b.py"]] ∧
    ((CodeAgentService.validate_and_fix Fixtures.env5 Fixtures.disk5 Fixtures.changes5).2.2.map
        CodeAgentService.RoundResult.errors).map (List.map Prod.fst) =
      [["b.py"], []] ∧
    (CodeAgentService.validate_and_fix Fixtures.env5 Fixtures.disk5 Fixtures.changes5).1 =
      true := by
  decide

/-- C5 (amended): within one repair session, only the failing files are
re-requested from the change producer — the broken-code request covers
exactly the failure list — but passing an earlier attempt does not exempt a
file from re-processing: each attempt iterates over the entire ChangeSet, so
every entry whose payload resolves to a string is processed again in every
round, being either written and validated anew or recorded again in that
round's failure list (the latter happens, for instance, when a previously
applied diff payload no longer applies); in particular an entry whose payload
is a plain string without the diff marker, including a previously-passing
file, is re-written and re-validated in each attempt.  (Entries whose
payloads do not resolve to a string are never written in any round; that
behaviour is C4's and C10's subject, not part of this claim.) -/
theorem c5_reprocessing_behavior (env : CodeAgentService.Env)
    (disk : String → Option (List Char)) (changes : List (String × CodeAgentService.PyVal))
    (fname : String) (v : CodeAgentService.PyVal) (s : List Char)
    (hmem : (fname, v) ∈ changes)
    (hres : CodeAgentService.resolvePayload v = some s) :
    ((fname ∈ (CodeAgentService.processRound env disk changes).written ∧
      fname ∈ (CodeAgentService.processRound env disk changes).validated) ∨
     fname ∈ (CodeAgentService.processRound env disk changes).errors.map Prod.fst) ∧
    (v = CodeAgentService.PyVal.str s →
     PyStr.containsSub DiffManager.markerBare s = false →
     fname ∈ (CodeAgentService.processRound env disk changes).written ∧
     fname ∈ (CodeAgentService.processRound env disk changes).validated) ∧
    (∀ (d : String → Option (List Char)) (ch : List (String × CodeAgentService.PyVal))
       (errs : List (String × List Char)),
      (CodeAgentService.brokenCode d ch errs).map Prod.fst = errs.map Prod.fst) := by
  refine ⟨?_, ?_, fun d ch errs => CodeAgentService.brokenCode_keys d ch errs⟩
  · rw [CodeAgentService.processRound]
    exact CodeAgentService.foldlEntries_processed env fname v s hres changes _ hmem
  · intro hv hmark
    subst hv
    rw [CodeAgentService.processRound]
    exact CodeAgentService.foldlEntries_mem_written env fname s hmark changes _ hmem

theorem c5_reprocessing_behavior_witness :
    (("a.py", CodeAgentService.PyVal.str "ok".data) ∈ Fixtures.changes5 ∧
     CodeAgentService.resolvePayload (CodeAgentService.PyVal.str "ok".data) =
       some "ok".data) ∧
    ((("a.py" ∈ (CodeAgentService.processRound Fixtures.env5 Fixtures.disk5
         Fixtures.changes5).written ∧
       "a.py" ∈ (CodeAgentService.processRound Fixtures.env5 Fixtures.disk5
         Fixtures.changes5).validated) ∨
      "a.py" ∈ (CodeAgentService.processRound Fixtures.env5 Fixtures.disk5
         Fixtures.changes5).errors.map Prod.fst) ∧
     (CodeAgentService.PyVal.str "ok".data = CodeAgentService.PyVal.str "ok".data →
      PyStr.containsSub DiffManager.markerBare "ok".data = false →
      "a.py" ∈ (CodeAgentService.processRound Fixtures.env5 Fixtures.disk5
         Fixtures.changes5).written ∧
      "a.py" ∈ (CodeAgentService.processRound Fixtures.env5 Fixtures.disk5
         Fixtures.changes5).validated) ∧
     (∀ (d : String → Option (List Char)) (ch : List (String × CodeAgentService.PyVal))
        (errs : List (String × List Char)),
       (CodeAgentService.brokenCode d ch errs).map Prod.fst = errs.map Prod.fst)) :=
  ⟨⟨by simp [Fixtures.changes5], rfl⟩,
   c5_reprocessing_behavior Fixtures.env5 Fixtures.disk5 Fixtures.changes5 "a.py"
     (CodeAgentService.PyVal.str "ok".data) "ok".data
     (by simp [Fixtures.changes5]) rfl⟩

/-- C10: there is a non-empty ChangeSet holding an entry whose payload is
neither a string nor a dict with a `"content"` key for which
`validate_and_fix` returns true although that entry's file is never written
or validated: the entry is skipped without joining the round's failure list,
so it neither blocks success nor triggers a repair request. -/
theorem c10_skipped_payload_success :
    CodeAgentService.resolvePayload CodeAgentService.PyVal.other = none ∧
    ("bad.py", CodeAgentService.PyVal.other) ∈ Fixtures.changes10 ∧
    (CodeAgentService.validate_and_fix Fixtures.env10 Fixtures.disk10 Fixtures.changes10).1 =
      true ∧
    (CodeAgentService.validate_and_fix Fixtures.env10 Fixtures.disk10 Fixtures.changes10).2.2.map
        CodeAgentService.RoundResult.written = [["good.py"]] ∧
    (CodeAgentService.validate_and_fix Fixtures.env10 Fixtures.disk10 Fixtures.changes10).2.2.map
        CodeAgentService.RoundResult.validated = [["good.py"]] ∧
    (CodeAgentService.validate_and_fix Fixtures.env10 Fixtures.disk10 Fixtures.changes10).2.2.map
        CodeAgentService.RoundResult.errors = [[]] := by
  decide

/-- C8: for a Python file whose content compiles without a syntax error, the
optional linter step degrades to Pass in all of these cases: a non-zero exit
with empty standard output, the checker binary being absent
(FileNotFoundError), and any other checker execution error — `check_code`
returns `none` with only a printed warning.  Conversely, a reported linter
failure can only arise from a completed run with a non-zero exit code and
non-empty standard output. -/
theorem c8_linter_degradation (filename : List Char)
    (hpy : CodeAgentService.endsWith ".py".data filename = true) :
    (∀ rc : Int, CodeAgentService.check_code filename CodeAgentService.SynOutcome.ok
        (CodeAgentService.LintOutcome.exited rc []) = none) ∧
    CodeAgentService.check_code filename CodeAgentService.SynOutcome.ok
      CodeAgentService.LintOutcome.fileNotFound = none ∧
    CodeAgentService.check_code filename CodeAgentService.SynOutcome.ok
      CodeAgentService.LintOutcome.execError = none ∧
    (∀ lint : CodeAgentService.LintOutcome,
      CodeAgentService.check_code filename CodeAgentService.SynOutcome.ok lint ≠ none →
      ∃ rc out, lint = CodeAgentService.LintOutcome.exited rc out ∧ rc ≠ 0 ∧ out ≠ []) := by
  have hcond : ¬ (CodeAgentService.endsWith ".py".data filename = false) := by
    rw [hpy]; simp
  refine ⟨?_, ?_, ?_, ?_⟩
  · intro rc
    rw [CodeAgentService.check_code, if_neg hcond]
    dsimp only
    by_cases hrc : rc ≠ 0
    · rw [if_pos hrc, if_neg (by decide)]
    · rw [if_neg hrc]
  · rw [CodeAgentService.check_code, if_neg hcond]
  · rw [CodeAgentService.check_code, if_neg hcond]
  · intro lint hne
    cases lint with
    | exited rc out =>
      refine ⟨rc, out, rfl, ?_, ?_⟩
      · intro hrc0
        apply hne
        rw [CodeAgentService.check_code, if_neg hcond]
        dsimp only
        rw [if_neg (by simp [hrc0])]
      · intro hout0
        apply hne
        subst hout0
        rw [CodeAgentService.check_code, if_neg hcond]
        dsimp only
        by_cases hrc : rc ≠ 0
        · rw [if_pos hrc, if_neg (by decide)]
        · rw [if_neg hrc]
    | fileNotFound =>
      exact absurd (by rw [CodeAgentService.check_code, if_neg hcond]) hne
    | execError =>
      exact absurd (by rw [CodeAgentService.check_code, if_neg hcond]) hne

theorem c8_linter_degradation_witness :
    CodeAgentService.endsWith ".py".data "m.py".data = true ∧
    ((∀ rc : Int, CodeAgentService.check_code "m.py".data CodeAgentService.SynOutcome.ok
        (CodeAgentService.LintOutcome.exited rc []) = none) ∧
     CodeAgentService.check_code "m.py".data CodeAgentService.SynOutcome.ok
       CodeAgentService.LintOutcome.fileNotFound = none ∧
     CodeAgentService.check_code "m.py".data CodeAgentService.SynOutcome.ok
       CodeAgentService.LintOutcome.execError = none ∧
     (∀ lint : CodeAgentService.LintOutcome,
       CodeAgentService.check_code "m.py".data CodeAgentService.SynOutcome.ok lint ≠ none →
       ∃ rc out, lint = CodeAgentService.LintOutcome.exited rc out ∧ rc ≠ 0 ∧ out ≠ [])) :=
  ⟨by decide, c8_linter_degradation "m.py".data (by decide)⟩
